import Mathlib

/-!
# Verification of the BUMP TV schedule generator (`schedule.py`)

A shallow embedding of the schedule generator. Timestamps and durations are
modelled as rationals (seconds since the epoch; Python uses timezone-aware
datetimes and float seconds, and every operation the code performs on them —
addition of a duration, comparison — is exact arithmetic on seconds).
The `looped_programming` generator is modelled as a fuel-indexed loop that
returns the list of pairs emitted so far together with a flag telling whether
the loop reached its `break` (`true`) or merely ran out of fuel (`false`);
the flag lets us state both termination and non-termination facts.
-/

/-- Embeds the `Video` class (`schedule.py` lines 12-30): display metadata,
a backing `filename`, and the lazily filled duration cache `_duration`
(`None` initially, i.e. `none`). File-existence checking in `__init__` is an
I/O side effect outside the model. -/
structure Video where
  key : String
  title : String
  creator : String
  year : Int
  description : String
  filename : String
  _duration : Option ℚ
deriving DecidableEq, Repr, Inhabited

/-- The value returned by the `duration` property (`schedule.py` lines 26-30):
the cached value when present, otherwise the result of probing the file. The
probing capability `ffprobe.duration` is modelled as a pure function
`probe : String → ℚ`. -/
def Video.duration (probe : String → ℚ) (v : Video) : ℚ :=
  match v._duration with
  | some d => d
  | none => probe v.filename

/-- The `duration` property access as a state transition (`schedule.py`
lines 26-30): returns the value, the video with its cache after the access,
and how many times the probing capability was invoked during the access. -/
def Video.duration_step (probe : String → ℚ) (v : Video) : ℚ × Video × Nat :=
  match v._duration with
  | some d => (d, v, 0)
  | none => (probe v.filename, { v with _duration := some (probe v.filename) }, 1)

/-- Embeds the `Schedule` class state (`schedule.py` lines 32-36):
a start instant (epoch seconds), a day count, and the ordered video list. -/
structure Schedule where
  start_datetime : ℚ
  days : Int
  videos : List Video
deriving DecidableEq, Repr

/-- Embeds `Schedule.append` (`schedule.py` lines 38-39). -/
def Schedule.append (s : Schedule) (v : Video) : Schedule :=
  { s with videos := s.videos ++ [v] }

/-- The body of the `for video in itertools.cycle(self.videos)` loop of
`looped_programming` (`schedule.py` lines 47-51), for a non-empty video list.
`itertools.cycle` yields `videos[i % len(videos)]` at iteration `i`; each
iteration emits `(t, video)`, advances `t` by `video.duration` seconds, and
breaks when the advanced `t` exceeds `end_t`. `fuel` bounds how many
iterations we unfold; the Boolean is `true` iff the `break` was reached
within the fuel. -/
def looped_aux (probe : String → ℚ) (videos : List Video) (end_t : ℚ) :
    Nat → ℚ → Nat → List (ℚ × Video) × Bool
  | 0, _, _ => ([], false)
  | fuel + 1, t, i =>
    let video := videos.getD (i % videos.length) default
    let t' := t + Video.duration probe video
    if t' > end_t then ([(t, video)], true)
    else
      let r := looped_aux probe videos end_t fuel t' (i + 1)
      ((t, video) :: r.1, r.2)

/-- Embeds `Schedule.looped_programming` (`schedule.py` lines 44-51):
`t` starts at `start_datetime`, `end_t = start_datetime + timedelta(days=days)`
(i.e. `days * 86400` seconds). `itertools.cycle` of an empty list yields
nothing, so the `for` loop ends at once, emitting nothing. -/
def Schedule.looped_programming (probe : String → ℚ) (s : Schedule) (fuel : Nat) :
    List (ℚ × Video) × Bool :=
  if s.videos.isEmpty then ([], true)
  else looped_aux probe s.videos (s.start_datetime + (s.days : ℚ) * 86400) fuel
    s.start_datetime 0

/-- Embeds `Schedule.write_schedule_json` (`schedule.py` lines 82-88): serializes the
generated sequence in order as `(timestamp, key)` pairs. `t.timestamp()` is
the identity in this model, timestamps being epoch seconds already. -/
def Schedule.write_schedule_json (probe : String → ℚ) (s : Schedule) (fuel : Nat) :
    List (ℚ × String) :=
  (s.looped_programming probe fuel).1.map fun p => (p.1, p.2.key)

/-- The loop body of `load_schedule` (`schedule.py` lines 106-109): for each
key in order, fail if the key is not in the `videos` mapping, else append the
referenced video. -/
def load_schedule_go (videos : String → Option Video) :
    List String → Schedule → Except String Schedule
  | [], sched => .ok sched
  | key :: rest, sched =>
    match videos key with
    | none =>
      .error ("Video with key \"" ++ key ++ "\" in schedule not found in metadata")
    | some v => load_schedule_go videos rest (sched.append v)

/-- Embeds `load_schedule` (`schedule.py` lines 101-110): builds a `Schedule` from an
ordered key list and a key-to-Video mapping (the Python dict is modelled as a
partial function), raising `ValueError` — modelled as `Except.error` — on the
first unknown key. -/
def load_schedule (sched_keys : List String) (videos : String → Option Video)
    (start_date : ℚ) (days : Int) : Except String Schedule :=
  load_schedule_go videos sched_keys
    { start_datetime := start_date, days := days, videos := [] }

/-! ## Concrete fixtures used in counterexamples and witnesses -/

/-- A probing capability stub (only consulted for videos with an empty cache). -/
def probe0 : String → ℚ := fun _ => 60

/-- A video with its duration cache already filled with `d` seconds. -/
def mkVideo (k : String) (d : ℚ) : Video :=
  { key := k, title := "t", creator := "c", year := 2020, description := "d",
    filename := k ++ ".mp4", _duration := some d }

/-- One video of exactly one day, requested coverage one day. -/
def schedOneDayVideo : Schedule :=
  { start_datetime := 0, days := 1, videos := [mkVideo "a" 86400] }

/-- The spec's scenario: three videos of exactly one day each, `days = 7`. -/
def schedWeek : Schedule :=
  { start_datetime := 0, days := 7,
    videos := [mkVideo "a" 86400, mkVideo "b" 86400, mkVideo "c" 86400] }

/-- An empty video list. -/
def schedEmpty : Schedule := { start_datetime := 0, days := 7, videos := [] }

/-- A single zero-duration video. -/
def schedZero : Schedule :=
  { start_datetime := 0, days := 7, videos := [mkVideo "z" 0] }

/-- Two videos, requested coverage zero days. -/
def schedPair : Schedule :=
  { start_datetime := 0, days := 0, videos := [mkVideo "a" 60, mkVideo "b" 120] }

/-- One video, negative requested coverage. -/
def schedNeg : Schedule :=
  { start_datetime := 0, days := -5, videos := [mkVideo "a" 60] }

/-- A video whose duration cache is still empty. -/
def freshVideo : Video :=
  { key := "f", title := "t", creator := "c", year := 2021, description := "d",
    filename := "f.mp4", _duration := none }

/-- A key-to-Video mapping holding only the key `a`. -/
def videosMap : String → Option Video :=
  fun k => if k = "a" then some (mkVideo "a" 60) else none

/-! ## Helper lemmas about the generation loop -/

/-- The video selected at any loop iteration is a member of the list. -/
theorem getD_mod_mem (videos : List Video) (hne : videos ≠ []) (i : Nat) :
    videos.getD (i % videos.length) default ∈ videos := by
  have hlen : 0 < videos.length := List.length_pos.mpr hne
  have h : i % videos.length < videos.length := Nat.mod_lt _ hlen
  rw [List.getD_eq_getElem _ _ h]
  exact List.getElem_mem h

/-- Closed form for the `j`-th pair emitted by the loop body: its timestamp is
the running time `t` plus the durations of the `j` plays before it, and its
video is the one `itertools.cycle` yields at iteration `i + j`. -/
theorem looped_aux_getD (probe : String → ℚ) (videos : List Video) (end_t : ℚ) :
    ∀ (fuel : Nat) (t : ℚ) (i j : Nat),
      j < (looped_aux probe videos end_t fuel t i).1.length →
      (looped_aux probe videos end_t fuel t i).1.getD j (0, default) =
        (t + ∑ k ∈ Finset.range j,
            Video.duration probe (videos.getD ((i + k) % videos.length) default),
          videos.getD ((i + j) % videos.length) default) := by
  intro fuel
  induction fuel with
  | zero => intro t i j hj; simp [looped_aux] at hj
  | succ n ih =>
    intro t i j hj
    by_cases hb :
        t + Video.duration probe (videos.getD (i % videos.length) default) > end_t
    · simp only [looped_aux, if_pos hb] at hj ⊢
      simp only [List.length_cons, List.length_nil] at hj
      have hj0 : j = 0 := by omega
      subst hj0
      simp
    · simp only [looped_aux, if_neg hb] at hj ⊢
      cases j with
      | zero => simp
      | succ j =>
        rw [List.getD_cons_succ]
        simp only [List.length_cons] at hj
        rw [ih _ _ j (by omega)]
        have hidx : ∀ k : ℕ, i + 1 + k = i + (k + 1) := by omega
        simp only [Prod.mk.injEq]
        refine ⟨?_, by rw [hidx j]⟩
        rw [Finset.sum_range_succ']
        have hsum :
            (∑ k ∈ Finset.range j,
              Video.duration probe (videos.getD ((i + 1 + k) % videos.length) default)) =
            ∑ k ∈ Finset.range j,
              Video.duration probe (videos.getD ((i + (k + 1)) % videos.length) default) :=
          Finset.sum_congr rfl fun k _ => by rw [hidx k]
        rw [hsum]
        ring_nf
        simp [Nat.add_zero]
        ring

/-- Structure of a run that reached the `break`: the list is non-empty, the
time reached after the last pair (its start plus its duration — the value of
`t` at the `break` test) exceeds `end_t`, and the time reached after every
earlier pair is at most `end_t` (otherwise the loop would have broken there). -/
theorem looped_aux_break (probe : String → ℚ) (videos : List Video) (end_t : ℚ) :
    ∀ (fuel : Nat) (t : ℚ) (i : Nat) (l : List (ℚ × Video)),
      looped_aux probe videos end_t fuel t i = (l, true) →
      ∃ pl, l.getLast? = some pl ∧
        pl.1 + Video.duration probe pl.2 > end_t ∧
        ∀ p ∈ l.dropLast, p.1 + Video.duration probe p.2 ≤ end_t := by
  intro fuel
  induction fuel with
  | zero => intro t i l h; simp [looped_aux] at h
  | succ n ih =>
    intro t i l h
    by_cases hb :
        t + Video.duration probe (videos.getD (i % videos.length) default) > end_t
    · simp only [looped_aux, if_pos hb, Prod.mk.injEq] at h
      obtain ⟨rfl, -⟩ := h
      exact ⟨_, List.getLast?_singleton _, hb, by simp⟩
    · simp only [looped_aux, if_neg hb, Prod.mk.injEq] at h
      obtain ⟨rfl, hfin⟩ := h
      set r := looped_aux probe videos end_t n
        (t + Video.duration probe (videos.getD (i % videos.length) default)) (i + 1)
        with hr
      obtain ⟨pl, hlast, hgt, hprev⟩ := ih _ _ r.1 (by rw [← hr, ← hfin])
      have hrne : r.1 ≠ [] := by
        intro hnil; rw [hnil] at hlast; simp at hlast
      refine ⟨pl, ?_, hgt, ?_⟩
      · obtain ⟨x, xs, hxs⟩ := List.exists_cons_of_ne_nil hrne
        rw [hxs] at hlast ⊢
        rw [List.getLast?_cons_cons]
        exact hlast
      · rw [List.dropLast_cons_of_ne_nil hrne]
        intro p hp
        rcases List.mem_cons.mp hp with hpt | hpd
        · rw [hpt]
          exact le_of_not_lt hb
        · exact hprev p hpd

/-- With a non-empty list whose durations are all at least `d > 0`, the loop
breaks within any fuel `fuel ≥ 1` satisfying `end_t - t < fuel * d`. -/
theorem looped_aux_finishes (probe : String → ℚ) (videos : List Video) (end_t : ℚ)
    (d : ℚ) (hd : 0 < d) (hne : videos ≠ [])
    (hmin : ∀ v ∈ videos, d ≤ Video.duration probe v) :
    ∀ (fuel : Nat) (t : ℚ), end_t - t < fuel * d → 1 ≤ fuel →
      ∀ i, (looped_aux probe videos end_t fuel t i).2 = true := by
  intro fuel
  induction fuel with
  | zero => intro t _ h1; omega
  | succ n ih =>
    intro t hlt _ i
    have hmem := getD_mod_mem videos hne i
    have hdur : d ≤ Video.duration probe (videos.getD (i % videos.length) default) :=
      hmin _ hmem
    by_cases hb :
        t + Video.duration probe (videos.getD (i % videos.length) default) > end_t
    · simp only [looped_aux, if_pos hb]
    · simp only [looped_aux, if_neg hb]
      have hle : t + Video.duration probe (videos.getD (i % videos.length) default)
          ≤ end_t := le_of_not_lt hb
      have hcast : ((n + 1 : ℕ) : ℚ) = (n : ℚ) + 1 := by push_cast; ring
      rcases Nat.eq_zero_or_pos n with hn0 | hn1
      · exfalso
        rw [hn0] at hlt
        push_cast at hlt
        linarith
      · apply ih
        · rw [hcast] at hlt
          nlinarith
        · omega

/-! ## Claim theorems -/

/-- C1 (amended): for a non-empty schedule with positive durations, when the
generation loop of `looped_programming` terminates, the time reached after the
last emitted play — its start timestamp plus its duration, i.e. the loop
variable `t` at the `break` test — exceeds `start_datetime + days`, and
removing the last emitted pair would make this false: the time reached after
every earlier play is at most `start_datetime + days`. (The claim's original
form, that the last play's start timestamp exceeds the window end, fails on a
concrete input.) -/
theorem looped_programming_coverage (probe : String → ℚ) (s : Schedule)
    (fuel : Nat) (l : List (ℚ × Video)) (hne : s.videos ≠ [])
    (hpos : ∀ v ∈ s.videos, 0 < Video.duration probe v)
    (h : s.looped_programming probe fuel = (l, true)) :
    ∃ pl, l.getLast? = some pl ∧
      pl.1 + Video.duration probe pl.2 > s.start_datetime + (s.days : ℚ) * 86400 ∧
      ∀ p ∈ l.dropLast, p.1 + Video.duration probe p.2 ≤
        s.start_datetime + (s.days : ℚ) * 86400 := by
  rw [Schedule.looped_programming, if_neg (by simpa using hne)] at h
  exact looped_aux_break probe s.videos _ fuel s.start_datetime 0 l h

/-- C1 witness: the amended coverage property instantiated on a one-video,
one-day schedule. -/
theorem looped_programming_coverage_witness :
    ∃ pl, [((0 : ℚ), mkVideo "a" 86400), (86400, mkVideo "a" 86400)].getLast? =
        some pl ∧
      pl.1 + Video.duration probe0 pl.2 >
        schedOneDayVideo.start_datetime + (schedOneDayVideo.days : ℚ) * 86400 ∧
      ∀ p ∈ [((0 : ℚ), mkVideo "a" 86400), (86400, mkVideo "a" 86400)].dropLast,
        p.1 + Video.duration probe0 p.2 ≤
          schedOneDayVideo.start_datetime + (schedOneDayVideo.days : ℚ) * 86400 :=
  looped_programming_coverage probe0 schedOneDayVideo 20 _
    (by simp [schedOneDayVideo])
    (by intro v hv
        simp only [schedOneDayVideo, List.mem_singleton] at hv
        subst hv
        norm_num [Video.duration, mkVideo])
    (by norm_num [Schedule.looped_programming, looped_aux, schedOneDayVideo,
          mkVideo, Video.duration])

/-- C1 counterexample: one video of duration 86400 s, `days = 1`. The loop
terminates after emitting plays at 0 and 86400; the last play's *start*
timestamp is 86400 = `start_datetime + days`, which does not exceed the
window end, refuting the claim as stated. -/
theorem looped_programming_coverage_counterexample :
    (Schedule.looped_programming probe0 schedOneDayVideo 20).2 = true ∧
    (Schedule.looped_programming probe0 schedOneDayVideo 20).1.map Prod.fst =
      [0, 86400] ∧
    ¬ ((86400 : ℚ) >
        schedOneDayVideo.start_datetime + (schedOneDayVideo.days : ℚ) * 86400) := by
  norm_num [Schedule.looped_programming, looped_aux, schedOneDayVideo, mkVideo,
    Video.duration]

/-- C5 counterexample: for the spec's scenario (3 videos of exactly one day
each, `days = 7`, stop condition `t > end_t` checked after emission and
advance) the loop emits 8 pairs, not 7: after the 7th emission `t` equals
`end_t` exactly and the strict comparison does not break the loop. -/
theorem week_scenario_counterexample :
    (Schedule.looped_programming probe0 schedWeek 20).1.length ≠ 7 := by
  norm_num [Schedule.looped_programming, looped_aux, schedWeek, mkVideo,
    Video.duration]

/-- C5 (amended): for 3 videos of duration exactly 1 day with `days = 7`,
`looped_programming` emits exactly 8 pairs, cycling through indices
0,1,2,0,1,2,0,1, and the last emitted timestamp equals
`start_datetime + 7 days`, under the stop condition `t > end_t` evaluated
after emission and advance. -/
theorem week_scenario_amended :
    (Schedule.looped_programming probe0 schedWeek 20).2 = true ∧
    (Schedule.looped_programming probe0 schedWeek 20).1.map
        (fun p => (p.1, p.2.key)) =
      [(0, "a"), (86400, "b"), (172800, "c"), (259200, "a"), (345600, "b"),
        (432000, "c"), (518400, "a"), (604800, "b")] := by
  norm_num [Schedule.looped_programming, looped_aux, schedWeek, mkVideo,
    Video.duration]

/-- C2 (code behaviour at the claim's failing inputs): the code defines no
degenerate-schedule check at all. With an empty video list the generator
completes normally with zero emissions and no error, for every fuel; with a
zero-duration video the loop never reaches its `break`, for every fuel
(an infinite loop in the real program). Contrast with the claim, which says
a `DegenerateScheduleError` is signaled before entering the loop. -/
theorem degenerate_schedule_no_error :
    (∀ fuel : Nat, Schedule.looped_programming probe0 schedEmpty fuel = ([], true))
    ∧ ∀ fuel : Nat, (Schedule.looped_programming probe0 schedZero fuel).2 = false := by
  constructor
  · intro fuel
    simp [Schedule.looped_programming, schedEmpty]
  · have key : ∀ (fuel i : Nat) (e : ℚ), 0 ≤ e →
        (looped_aux probe0 [mkVideo "z" 0] e fuel 0 i).2 = false := by
      intro fuel
      induction fuel with
      | zero => intro i e he; simp [looped_aux]
      | succ n ih =>
        intro i e he
        have hdv : Video.duration probe0
            (([mkVideo "z" 0] : List Video).getD (i % 1) default) = 0 := by
          simp [Nat.mod_one, Video.duration, mkVideo]
        simp only [looped_aux, List.length_cons, List.length_nil, hdv, add_zero]
        rw [if_neg (by simpa using he)]
        simpa using ih (i + 1) e he
    intro fuel
    have hform : Schedule.looped_programming probe0 schedZero fuel =
        looped_aux probe0 [mkVideo "z" 0] (0 + ((7 : ℤ) : ℚ) * 86400) fuel 0 0 := by
      simp [Schedule.looped_programming, schedZero]
    rw [hform]
    exact key fuel 0 _ (by norm_num)

/-- C3: for a non-empty video list, the pair emitted by `looped_programming`
at generation index `j` carries `videos[j mod N]` — the append order repeated
end-to-end, never sorted or deduplicated. -/
theorem looped_programming_cycling (probe : String → ℚ) (s : Schedule)
    (fuel j : Nat) (hne : s.videos ≠ [])
    (hj : j < (s.looped_programming probe fuel).1.length) :
    ((s.looped_programming probe fuel).1.getD j (0, default)).2 =
      s.videos.getD (j % s.videos.length) default := by
  rw [Schedule.looped_programming, if_neg (by simpa using hne)] at hj ⊢
  rw [looped_aux_getD probe s.videos _ fuel s.start_datetime 0 j hj]
  simp

/-- C3 witness: the cycling property instantiated at index 0 of a two-video,
zero-day schedule. -/
theorem looped_programming_cycling_witness :
    schedPair.videos ≠ [] ∧
    0 < (Schedule.looped_programming probe0 schedPair 5).1.length ∧
    ((Schedule.looped_programming probe0 schedPair 5).1.getD 0 (0, default)).2 =
      schedPair.videos.getD (0 % schedPair.videos.length) default := by
  have hne : schedPair.videos ≠ [] := by simp [schedPair]
  have hj : 0 < (Schedule.looped_programming probe0 schedPair 5).1.length := by
    norm_num [Schedule.looped_programming, looped_aux, schedPair, mkVideo,
      Video.duration]
  exact ⟨hne, hj, looped_programming_cycling probe0 schedPair 5 0 hne hj⟩

/-- C4: with all durations positive, consecutive emitted timestamps advance by
exactly the preceding video's duration, and the timestamp sequence is strictly
increasing (across any two generation indices). -/
theorem looped_programming_monotonic (probe : String → ℚ) (s : Schedule)
    (fuel : Nat) (hpos : ∀ v ∈ s.videos, 0 < Video.duration probe v) :
    (∀ j, j + 1 < (s.looped_programming probe fuel).1.length →
      ((s.looped_programming probe fuel).1.getD (j + 1) (0, default)).1 =
        ((s.looped_programming probe fuel).1.getD j (0, default)).1 +
          Video.duration probe
            ((s.looped_programming probe fuel).1.getD j (0, default)).2) ∧
    (∀ j k, j < k → k < (s.looped_programming probe fuel).1.length →
      ((s.looped_programming probe fuel).1.getD j (0, default)).1 <
        ((s.looped_programming probe fuel).1.getD k (0, default)).1) := by
  rcases eq_or_ne s.videos [] with he | hne
  · rw [Schedule.looped_programming, if_pos (by simp [he])]
    exact ⟨fun j hj => by simp at hj, fun j k hjk hk => by simp at hk⟩
  · rw [Schedule.looped_programming, if_neg (by simpa using hne)]
    constructor
    · intro j hj
      rw [looped_aux_getD probe s.videos _ fuel s.start_datetime 0 (j + 1) hj,
        looped_aux_getD probe s.videos _ fuel s.start_datetime 0 j (by omega)]
      simp only [Nat.zero_add]
      rw [Finset.sum_range_succ]
      ring
    · intro j k hjk hk
      rw [looped_aux_getD probe s.videos _ fuel s.start_datetime 0 k hk,
        looped_aux_getD probe s.videos _ fuel s.start_datetime 0 j (by omega)]
      simp only [Nat.zero_add]
      have hsplit :
          (∑ m ∈ Finset.range j,
            Video.duration probe (s.videos.getD (m % s.videos.length) default)) +
          (∑ m ∈ Finset.Ico j k,
            Video.duration probe (s.videos.getD (m % s.videos.length) default)) =
          ∑ m ∈ Finset.range k,
            Video.duration probe (s.videos.getD (m % s.videos.length) default) := by
        rw [Finset.range_eq_Ico]
        exact Finset.sum_Ico_consecutive _ (Nat.zero_le j) (le_of_lt hjk)
      have hposum : 0 < ∑ m ∈ Finset.Ico j k,
          Video.duration probe (s.videos.getD (m % s.videos.length) default) :=
        Finset.sum_pos
          (fun m _ => hpos _ (getD_mod_mem s.videos hne m))
          (Finset.nonempty_Ico.mpr hjk)
      linarith

/-- C4 witness: the step and strict-increase properties instantiated on the
three-video week schedule. -/
theorem looped_programming_monotonic_witness :
    (∀ v ∈ schedWeek.videos, 0 < Video.duration probe0 v) ∧
    ((∀ j, j + 1 < (Schedule.looped_programming probe0 schedWeek 20).1.length →
      ((Schedule.looped_programming probe0 schedWeek 20).1.getD (j + 1)
          (0, default)).1 =
        ((Schedule.looped_programming probe0 schedWeek 20).1.getD j
            (0, default)).1 +
          Video.duration probe0
            ((Schedule.looped_programming probe0 schedWeek 20).1.getD j
              (0, default)).2) ∧
    (∀ j k, j < k → k < (Schedule.looped_programming probe0 schedWeek 20).1.length →
      ((Schedule.looped_programming probe0 schedWeek 20).1.getD j (0, default)).1 <
        ((Schedule.looped_programming probe0 schedWeek 20).1.getD k
          (0, default)).1)) := by
  have hpos : ∀ v ∈ schedWeek.videos, 0 < Video.duration probe0 v := by
    intro v hv
    simp only [schedWeek, List.mem_cons, List.not_mem_nil, or_false] at hv
    rcases hv with rfl | rfl | rfl <;> norm_num [Video.duration, mkVideo]
  exact ⟨hpos, looped_programming_monotonic probe0 schedWeek 20 hpos⟩

/-- A non-empty list of positive-duration videos has a positive lower bound on
its durations. -/
theorem exists_min_duration (probe : String → ℚ) :
    ∀ (videos : List Video), videos ≠ [] →
      (∀ v ∈ videos, 0 < Video.duration probe v) →
      ∃ d : ℚ, 0 < d ∧ ∀ v ∈ videos, d ≤ Video.duration probe v := by
  intro videos
  induction videos with
  | nil => intro h; exact absurd rfl h
  | cons v rest ih =>
    intro _ hpos
    rcases eq_or_ne rest [] with hr | hr
    · subst hr
      exact ⟨Video.duration probe v, hpos v (by simp), by simp⟩
    · obtain ⟨d, hd, hmin⟩ := ih hr fun w hw => hpos w (List.mem_cons_of_mem _ hw)
      refine ⟨min (Video.duration probe v) d, lt_min (hpos v (by simp)) hd, ?_⟩
      intro w hw
      rcases List.mem_cons.mp hw with rfl | hw'
      · exact min_le_left _ _
      · exact le_trans (min_le_right _ _) (hmin w hw')

/-- C6: the generation loop of `looped_programming` terminates — some fuel
reaches the `break` — whenever the video list is non-empty and every video in
it has positive duration. -/
theorem looped_programming_terminates (probe : String → ℚ) (s : Schedule)
    (hne : s.videos ≠ []) (hpos : ∀ v ∈ s.videos, 0 < Video.duration probe v) :
    ∃ fuel, (s.looped_programming probe fuel).2 = true := by
  obtain ⟨d, hd, hmin⟩ := exists_min_duration probe s.videos hne hpos
  obtain ⟨n, hn⟩ := exists_nat_gt (((s.days : ℚ) * 86400) / d)
  refine ⟨max n 1, ?_⟩
  rw [Schedule.looped_programming, if_neg (by simpa using hne)]
  apply looped_aux_finishes probe s.videos _ d hd hne hmin
  · have h1 : (s.days : ℚ) * 86400 < n * d := by
      rw [div_lt_iff₀ hd] at hn
      exact hn
    have h2 : (n : ℚ) * d ≤ ((max n 1 : ℕ) : ℚ) * d := by
      have : (n : ℚ) ≤ ((max n 1 : ℕ) : ℚ) := by
        exact_mod_cast Nat.le_max_left n 1
      exact mul_le_mul_of_nonneg_right this hd.le
    have : s.start_datetime + (s.days : ℚ) * 86400 - s.start_datetime =
        (s.days : ℚ) * 86400 := by ring
    rw [this]
    linarith
  · exact Nat.le_max_right n 1

/-- C6 witness: termination on the three-video week schedule. -/
theorem looped_programming_terminates_witness :
    schedWeek.videos ≠ [] ∧
    (∀ v ∈ schedWeek.videos, 0 < Video.duration probe0 v) ∧
    ∃ fuel, (Schedule.looped_programming probe0 schedWeek fuel).2 = true := by
  have hne : schedWeek.videos ≠ [] := by simp [schedWeek]
  have hpos : ∀ v ∈ schedWeek.videos, 0 < Video.duration probe0 v := by
    intro v hv
    simp only [schedWeek, List.mem_cons, List.not_mem_nil, or_false] at hv
    rcases hv with rfl | rfl | rfl <;> norm_num [Video.duration, mkVideo]
  exact ⟨hne, hpos, looped_programming_terminates probe0 schedWeek hne hpos⟩

/-- C7: on a video whose cache is empty, the first `duration` access invokes
the probing capability with the video's filename exactly once; the access on
the resulting video returns the same value, leaves the video unchanged, and
invokes the probe zero times — and any video with a filled cache behaves the
same way, so the value never changes after it is first computed. -/
theorem duration_cache_idempotent (probe : String → ℚ) (v : Video)
    (h : v._duration = none) :
    (v.duration_step probe).2.2 = 1 ∧
    (v.duration_step probe).1 = probe v.filename ∧
    (v.duration_step probe).2.1.duration_step probe =
      ((v.duration_step probe).1, (v.duration_step probe).2.1, 0) ∧
    ∀ (w : Video) (d : ℚ), w._duration = some d →
      w.duration_step probe = (d, w, 0) := by
  refine ⟨?_, ?_, ?_, ?_⟩
  · simp [Video.duration_step, h]
  · simp [Video.duration_step, h]
  · simp [Video.duration_step, h]
  · intro w d hw
    simp [Video.duration_step, hw]

/-- C7 witness: the cache behaviour on a concrete fresh video. -/
theorem duration_cache_idempotent_witness :
    freshVideo._duration = none ∧
    ((freshVideo.duration_step probe0).2.2 = 1 ∧
    (freshVideo.duration_step probe0).1 = probe0 freshVideo.filename ∧
    (freshVideo.duration_step probe0).2.1.duration_step probe0 =
      ((freshVideo.duration_step probe0).1,
        (freshVideo.duration_step probe0).2.1, 0) ∧
    ∀ (w : Video) (d : ℚ), w._duration = some d →
      w.duration_step probe0 = (d, w, 0)) :=
  ⟨rfl, duration_cache_idempotent probe0 freshVideo rfl⟩

/-- Lemma: `load_schedule_go` fails exactly when some key of the remaining list is
absent from the mapping. -/
theorem load_schedule_go_error_iff (videos : String → Option Video) :
    ∀ (keys : List String) (sched : Schedule),
      (∃ e, load_schedule_go videos keys sched = .error e) ↔
        ∃ k ∈ keys, videos k = none := by
  intro keys
  induction keys with
  | nil => intro sched; simp [load_schedule_go]
  | cons key rest ih =>
    intro sched
    cases hk : videos key with
    | none =>
      constructor
      · intro _; exact ⟨key, List.mem_cons_self key rest, hk⟩
      · intro _
        exact ⟨"Video with key \"" ++ key ++ "\" in schedule not found in metadata",
          by simp [load_schedule_go, hk]⟩
    | some v =>
      rw [show load_schedule_go videos (key :: rest) sched =
          load_schedule_go videos rest (sched.append v) by
        simp [load_schedule_go, hk]]
      rw [ih (sched.append v)]
      constructor
      · intro ⟨k, hkmem, hknone⟩; exact ⟨k, List.mem_cons_of_mem _ hkmem, hknone⟩
      · intro ⟨k, hkmem, hknone⟩
        rcases List.mem_cons.mp hkmem with rfl | hkr
        · rw [hk] at hknone; exact absurd hknone (by simp)
        · exact ⟨k, hkr, hknone⟩

/-- On success, `load_schedule_go` appends exactly one looked-up video per key,
in key order, and every key was present. -/
theorem load_schedule_go_ok (videos : String → Option Video) :
    ∀ (keys : List String) (sched sch : Schedule),
      load_schedule_go videos keys sched = .ok sch →
      sch.videos = sched.videos ++ keys.map (fun k => (videos k).getD default) ∧
      ∀ k ∈ keys, (videos k).isSome := by
  intro keys
  induction keys with
  | nil =>
    intro sched sch h
    simp only [load_schedule_go, Except.ok.injEq] at h
    subst h
    simp
  | cons key rest ih =>
    intro sched sch h
    cases hk : videos key with
    | none => rw [load_schedule_go, hk] at h; exact absurd h (by simp)
    | some v =>
      rw [load_schedule_go, hk] at h
      obtain ⟨hv, hsome⟩ := ih (sched.append v) sch h
      constructor
      · rw [hv]
        simp [Schedule.append, hk]
      · intro k hkmem
        rcases List.mem_cons.mp hkmem with rfl | hkr
        · simp [hk]
        · exact hsome k hkr

/-- C8: `load_schedule` fails (with the unknown-key `ValueError`) iff some key
of the ordered schedule key list is absent from the key-to-Video mapping; the
check happens per key at load time, and on success no key is skipped: the
schedule holds exactly one video per key, in key order. -/
theorem load_schedule_referential_integrity (sched_keys : List String)
    (videos : String → Option Video) (start_date : ℚ) (days : Int) :
    ((∃ e, load_schedule sched_keys videos start_date days = .error e) ↔
      ∃ k ∈ sched_keys, videos k = none) ∧
    ∀ sch, load_schedule sched_keys videos start_date days = .ok sch →
      sch.videos = sched_keys.map (fun k => (videos k).getD default) ∧
      sch.videos.length = sched_keys.length := by
  constructor
  · exact load_schedule_go_error_iff videos sched_keys _
  · intro sch h
    obtain ⟨hv, -⟩ := load_schedule_go_ok videos sched_keys _ sch h
    simp only [List.nil_append] at hv
    exact ⟨hv, by rw [hv, List.length_map]⟩

/-- C8 witness: a successful load over the map holding only key `a`. -/
theorem load_schedule_referential_integrity_witness :
    ∃ sch, load_schedule ["a"] videosMap 0 7 = Except.ok sch ∧
      sch.videos = (["a"] : List String).map (fun k => (videosMap k).getD default) ∧
      sch.videos.length = (["a"] : List String).length := by
  have h : load_schedule ["a"] videosMap 0 7 =
      Except.ok { start_datetime := 0, days := 7, videos := [mkVideo "a" 60] } := by
    simp [load_schedule, load_schedule_go, videosMap, Schedule.append]
  exact ⟨_, h, (load_schedule_referential_integrity ["a"] videosMap 0 7).2 _ h⟩

/-- C9: `write_schedule_json` serializes the generated sequence in generation
order as `(timestamp, key)` pairs, where the `j`-th timestamp equals
`start_datetime` (epoch seconds) plus the sum of the durations of the `j`
preceding plays in the cycle, and the `j`-th key is the key of
`videos[j mod N]`. -/
theorem write_schedule_json_correct (probe : String → ℚ) (s : Schedule)
    (fuel j : Nat) (hj : j < (s.write_schedule_json probe fuel).length) :
    (s.write_schedule_json probe fuel).getD j (0, "") =
      (s.start_datetime + ∑ k ∈ Finset.range j,
          Video.duration probe (s.videos.getD (k % s.videos.length) default),
        (s.videos.getD (j % s.videos.length) default).key) := by
  rcases eq_or_ne s.videos [] with he | hne
  · exfalso
    rw [Schedule.write_schedule_json, Schedule.looped_programming,
      if_pos (by simp [he])] at hj
    simp at hj
  · rw [Schedule.write_schedule_json, Schedule.looped_programming,
      if_neg (by simpa using hne)] at hj ⊢
    rw [List.length_map] at hj
    have hget := looped_aux_getD probe s.videos
      (s.start_datetime + (s.days : ℚ) * 86400) fuel s.start_datetime 0 j hj
    rw [List.getD_eq_getElem _ _ hj] at hget
    rw [List.getD_eq_getElem?_getD, List.getElem?_map,
      List.getElem?_eq_getElem hj]
    rw [hget]
    simp only [Nat.zero_add, Option.map_some', Option.getD_some]

/-- C9 witness: the serialized pair at index 1 of the week schedule. -/
theorem write_schedule_json_correct_witness :
    1 < (Schedule.write_schedule_json probe0 schedWeek 20).length ∧
    (Schedule.write_schedule_json probe0 schedWeek 20).getD 1 (0, "") =
      (schedWeek.start_datetime + ∑ k ∈ Finset.range 1,
          Video.duration probe0
            (schedWeek.videos.getD (k % schedWeek.videos.length) default),
        (schedWeek.videos.getD (1 % schedWeek.videos.length) default).key) := by
  have hj : 1 < (Schedule.write_schedule_json probe0 schedWeek 20).length := by
    norm_num [Schedule.write_schedule_json, Schedule.looped_programming,
      looped_aux, schedWeek, mkVideo, Video.duration]
  exact ⟨hj, write_schedule_json_correct probe0 schedWeek 20 1 hj⟩

/-- C10: for a non-empty video list, `looped_programming` emits at least one
pair, and the first emitted pair is `(start_datetime, videos[0])`, for every
`days` (the schedule's `days`, including zero and negative, is unrestricted):
the termination check only runs after the first emission and advance. -/
theorem looped_programming_first_emission (probe : String → ℚ) (s : Schedule)
    (fuel : Nat) (hne : s.videos ≠ []) (hfuel : 1 ≤ fuel) :
    (s.looped_programming probe fuel).1 ≠ [] ∧
    (s.looped_programming probe fuel).1.head? =
      some (s.start_datetime, s.videos.getD 0 default) := by
  obtain ⟨n, rfl⟩ : ∃ n, fuel = n + 1 := ⟨fuel - 1, by omega⟩
  rw [Schedule.looped_programming, if_neg (by simpa using hne)]
  simp only [looped_aux, Nat.zero_mod]
  by_cases hb : s.start_datetime +
      Video.duration probe (s.videos.getD 0 default) >
      s.start_datetime + (s.days : ℚ) * 86400
  · rw [if_pos hb]; simp
  · rw [if_neg hb]; simp

/-- C10 witness: the one-video schedule with `days = -5` still emits its first
pair `(start_datetime, videos[0])`. -/
theorem looped_programming_first_emission_witness :
    schedNeg.videos ≠ [] ∧
    ((Schedule.looped_programming probe0 schedNeg 3).1 ≠ [] ∧
    (Schedule.looped_programming probe0 schedNeg 3).1.head? =
      some (schedNeg.start_datetime, schedNeg.videos.getD 0 default)) := by
  have hne : schedNeg.videos ≠ [] := by simp [schedNeg]
  exact ⟨hne,
    looped_programming_first_emission probe0 schedNeg 3 hne (by omega)⟩
